import Mathlib

/-!
Cash-flow instruments of `fms_instrument.h` and the bootstrap entry point of
`xll_bootstrap.cpp`.

Shallow embedding of the instrument classes (`instrument`, `zero_coupon_bond`,
`bond`, `periods`) at the template arguments the repository uses, `U = C =
double`, and of the control flow of `xll_curve_pwflat_bootstrap_`.

A finite `double` is the rational number it denotes, and an arithmetic
operation is the exact operation followed by `round64`, the rounding to the
nearest binary64 number with ties to even.  A `std::vector` is a `List`, a
throwing constructor returns `Except`, a loop that need not end takes a number
of steps it may run (`fuel`) and returns `none` when they do not suffice, and
the operations of headers that are not at hand are parameters (`xll.Host`).
-/

set_option linter.dupNamespace false

namespace fms

/-- The error kind raised by a failed `ensure`. -/
inductive Error where
  | InvalidArgument
  deriving DecidableEq, Repr

/-- Modelled from the spec: the `ensure` macro of `fms_error.h`, which is not
part of the sources at hand.  The check raises when its condition is false and
does nothing otherwise. -/
def ensure (b : Bool) : Except Error Unit :=
  if b then .ok () else .error .InvalidArgument

/-! ## Arithmetic of `double` -/

/-- Round to the nearest integer, ties to the even one. -/
def rne (q : ℚ) : ℤ :=
  if q - ⌊q⌋ < 1 / 2 then ⌊q⌋
  else if 1 / 2 < q - ⌊q⌋ then ⌊q⌋ + 1
  else if ⌊q⌋ % 2 = 0 then ⌊q⌋ else ⌊q⌋ + 1

/-- The binade of `x`: the exponent `e` with `2 ^ e ≤ |x| < 2 ^ (e + 1)`, and
`-1022` for zero and the subnormal numbers. -/
def exponent (x : ℚ) : ℤ :=
  if x = 0 then -1022 else max (Int.log 2 |x|) (-1022)

/-- The spacing of the binary64 numbers in the binade of `x`: 52 fraction bits
below the leading one. -/
def ulp (x : ℚ) : ℚ := 2 ^ (exponent x - 52)

/-- Rounding to the nearest binary64 number, ties to the even significand.  The
exponent is not capped from above: the operations embedded here keep finite
operands finite (`round64_abs_le_max_double`). -/
def round64 (x : ℚ) : ℚ := (rne (x / ulp x) : ℚ) * ulp x

/-- The largest finite `double`, `(2 ^ 53 - 1) * 2 ^ 971`. -/
def max_double : ℚ := (2 ^ 53 - 1) * 2 ^ 971

/-- The rationals that are finite values of type `double`. -/
def is_double (x : ℚ) : Prop := round64 x = x ∧ |x| ≤ max_double

instance is_double.decidable (x : ℚ) : Decidable (is_double x) := by
  unfold is_double
  infer_instance

/-- The operator `x - y` on `double`. -/
def double.sub (x y : ℚ) : ℚ := round64 (x - y)

/-- The operator `x / y` on `double`. -/
def double.div (x y : ℚ) : ℚ := round64 (x / y)

/-- The operator `x + y` on `double`. -/
def double.add (x y : ℚ) : ℚ := round64 (x + y)

namespace instrument

/-- The call `std::is_sorted(u.begin(), u.end())` with the default `operator<`:
there is no adjacent pair whose second element is less than the first. -/
def is_sorted : List ℚ → Bool
  | [] => true
  | [_] => true
  | a :: b :: rest => !(decide (b < a)) && is_sorted (b :: rest)

/-- The data members `u` and `c` of `class instrument`. -/
structure instrument where
  raw ::
  u : List ℚ
  c : List ℚ
  deriving DecidableEq, Repr

/-- The constructor `instrument::instrument(u, c)`: copy the two sequences, then
run the two `ensure` checks of the constructor body. -/
def instrument.ctor (u c : List ℚ) : Except Error instrument := do
  ensure (u.length == c.length)
  ensure (is_sorted u)
  pure (instrument.raw u c)

/-- The member `base::size()`, that is `_size()`, that is `u.size()`. -/
def instrument.size (z : instrument) : Nat := z.u.length

/-- The member `base::first()`: the pair `(_time()[0], _cash()[0])`.  The result
is `none` where the source reads outside the vectors. -/
def instrument.first (z : instrument) : Option (ℚ × ℚ) :=
  match z.u[0]?, z.c[0]? with
  | some t, some a => some (t, a)
  | _, _ => none

/-- The member `base::last()`: the pair
`(_time()[_size() - 1], _cash()[_size() - 1])`.  The result is `none` where the
source reads outside the vectors (for an empty instrument `_size() - 1` wraps
around). -/
def instrument.last (z : instrument) : Option (ℚ × ℚ) :=
  if z.size = 0 then none
  else
    match z.u[z.size - 1]?, z.c[z.size - 1]? with
    | some t, some a => some (t, a)
    | _, _ => none

/-- The constructor `zero_coupon_bond(u, c = 1)`: the base constructor on two
one-element spans. -/
def zero_coupon_bond (u : ℚ) (c : ℚ := 1) : Except Error instrument :=
  instrument.ctor [u] [c]

/-- The type `enum class frequency`. -/
inductive frequency where
  | annual
  | semiannual
  | quarterly
  | monthly
  deriving DecidableEq, Repr

/-- The enumerator values: annual = 1, semiannual = 2, quarterly = 4,
monthly = 12. -/
def frequency.value : frequency → Nat
  | .annual => 1
  | .semiannual => 2
  | .quarterly => 4
  | .monthly => 12

/-- The period `U(1) / U(f)`, a quotient of two `double`. -/
def frequency.period (f : frequency) : ℚ := double.div 1 (f.value : ℚ)

/-- The `while` loop of `periods`: `while ((u -= U(1) / U(f)) > 0) ++n;`
followed by `return n`.  The loop need not end (a large `u` absorbs the
subtraction), so it runs for at most `fuel` tests. -/
def periods.loop (f : frequency) : Nat → ℚ → Nat → Option Nat
  | 0, _, _ => none
  | fuel + 1, u, n =>
    if 0 < double.sub u f.period then periods.loop f fuel (double.sub u f.period) (n + 1)
    else some n

/-- The function `periods(u, f)`: the counter `n` starts at 1 and is returned when
the loop ends.  The counter is a natural number: the values of `u` in a run
that ends are distinct positive `double`, fewer than `2 ^ 64`, so a
`std::size_t` does not wrap around. -/
def periods (fuel : Nat) (u : ℚ) (f : frequency) : Option Nat :=
  periods.loop f fuel u 1

/-- The `for` loop of the `bond` constructor body, with `i` the loop counter
before the decrement, `u` the running time, and `us`, `cs` the vectors
`instrument::u`, `instrument::c`:
`--i; us[i] = u; u -= U(1) / U(f); cs[i] = c / U(f);`. -/
def bond.loop (c : ℚ) (f : frequency) : Nat → ℚ → List ℚ → List ℚ → List ℚ × List ℚ
  | 0, _, us, cs => (us, cs)
  | i + 1, u, us, cs =>
    bond.loop c f i (double.sub u f.period) (us.set i u)
      (cs.set i (double.div c (f.value : ℚ)))

/-- The constructor body of `bond` after the base constructor has run on two
value-initialised (all zero) vectors of `p` elements: fill them from the back
and add the notional to the last cash flow. -/
def bond.body (p : Nat) (u c : ℚ) (f : frequency) : Except Error instrument := do
  let z ← instrument.ctor (List.replicate p 0) (List.replicate p 0)
  let n := z.size
  let r := bond.loop c f n u z.u z.c
  pure (instrument.raw r.1 (r.2.set (n - 1) (double.add (r.2.getD (n - 1) 0) 1)))

/-- The constructor `bond(u, c, f = semiannual)`: the member initialisers call
`periods(u, f)` for the sizes of the two vectors, then the body runs.  The
result is `none` when `periods` does not return within `fuel` tests. -/
def bond (fuel : Nat) (u c : ℚ) (f : frequency := .semiannual) :
    Option (Except Error instrument) :=
  match periods fuel u f with
  | none => none
  | some p => some (bond.body p u c f)

end instrument

end fms

/-! ## The host entry point -/

namespace xll

open fms fms.instrument

/-- The type `HANDLEX` of the host library, a `double` there. -/
abbrev HANDLEX := ℚ

/-- The operations that `xll_curve_pwflat_bootstrap_` calls and whose code is
declared in headers outside the sources at hand (`xll_fi.h`, `fms_bootstrap.h`),
taken as parameters. -/
structure Host (Curve : Type) where
  /-- The constant `INVALID_HANDLEX`. -/
  INVALID_HANDLEX : HANDLEX
  /-- The instrument behind a handle: `handle<instrument::base<>> inst(x)` then
  `inst.as<instrument::instrument<>>()`; `none` when `!inst`. -/
  instrument_handle : HANDLEX → Option instrument
  /-- The call `curve::bootstrap(is, pp)`, which returns a curve or throws. -/
  bootstrap : List instrument → List ℚ → Except Error Curve
  /-- The handle of a new curve: `handle<curve::base<>> h_(new curve::pwflat(f))`
  then `h_.get()`; `none` when `!h_`. -/
  curve_handle : Curve → Option HANDLEX
  /-- A handle that passes `ensure(h_)` is not the invalid handle. -/
  curve_handle_valid : ∀ (c : Curve) (h : HANDLEX), curve_handle c = some h → h ≠ INVALID_HANDLEX

/-- What one call leaves behind: the handle it returns and how many times it
entered `curve::bootstrap`. -/
structure Outcome where
  h : HANDLEX
  bootstrap_calls : Nat
  deriving DecidableEq, Repr

/-- The `for` loop of the `try` block: resolve the handles in index order,
raising at the first one that is invalid. -/
def instruments {Curve : Type} (H : Host Curve) : List HANDLEX → Except Error (List instrument)
  | [] => pure []
  | x :: xs => do
    let inst ← (match H.instrument_handle x with
      | some z => pure z
      | none => throw Error.InvalidArgument)
    let rest ← instruments H xs
    pure (inst :: rest)

/-- The `try` block up to the call of `curve::bootstrap`: the three size
checks, then the loop over the handles. -/
def validate {Curve : Type} (H : Host Curve) (pi pp : List ℚ) : Except Error (List instrument) := do
  ensure (decide (pi.length > 0))
  ensure (decide (pp.length > 0))
  ensure (pi.length == pp.length)
  instruments H pi

/-- The `try` block from the call of `curve::bootstrap` on: the call, then the
handle of the new curve and its `ensure`. -/
def publish {Curve : Type} (H : Host Curve) (is : List instrument) (pp : List ℚ) :
    Except Error HANDLEX := do
  let f ← H.bootstrap is pp
  match H.curve_handle f with
  | some h => pure h
  | none => throw Error.InvalidArgument

/-- A host with one registered instrument, the unit zero-coupon bond at time 1
under handle 7, whose bootstrap hands back its prices and whose curve handles
are all 42. -/
def demo : Host (List ℚ) where
  INVALID_HANDLEX := 0
  instrument_handle := fun x => if x = 7 then some (instrument.raw [1] [1]) else none
  bootstrap := fun _ pp => .ok pp
  curve_handle := fun _ => some 42
  curve_handle_valid := by
    intro c h hc
    cases Option.some.inj hc
    decide

end xll

open fms fms.instrument xll

/-- The entry point `xll_curve_pwflat_bootstrap_(pi, pp)`: `h` starts as
`INVALID_HANDLEX` and is assigned only at the end of the `try` block; both
`catch` clauses report the error and fall through to `return h`. -/
def xll_curve_pwflat_bootstrap_ {Curve : Type} (H : Host Curve) (pi pp : List ℚ) : Outcome :=
  match validate H pi pp with
  | .error _ => ⟨H.INVALID_HANDLEX, 0⟩
  | .ok is =>
    match publish H is pp with
    | .error _ => ⟨H.INVALID_HANDLEX, 1⟩
    | .ok h => ⟨h, 1⟩

namespace fms

/-! ## Rounding -/

theorem rne_mem (q : ℚ) : rne q = ⌊q⌋ ∨ rne q = ⌊q⌋ + 1 := by
  unfold rne
  split_ifs <;> simp

theorem rne_intCast (n : ℤ) : rne (n : ℚ) = n := by
  unfold rne
  simp

theorem rne_mono {p q : ℚ} (h : p ≤ q) : rne p ≤ rne q := by
  have hfl : ⌊p⌋ ≤ ⌊q⌋ := Int.floor_mono h
  rcases lt_or_eq_of_le hfl with hlt | heq
  · have h1 : rne p ≤ ⌊p⌋ + 1 := by
      rcases rne_mem p with h | h <;> omega
    have h2 : ⌊q⌋ ≤ rne q := by
      rcases rne_mem q with h | h <;> omega
    omega
  · unfold rne
    rw [← heq]
    have hr : p - ⌊p⌋ ≤ q - ⌊p⌋ := by linarith
    split_ifs <;> first | omega | (exfalso; linarith)

theorem le_rne {n : ℤ} {q : ℚ} (h : (n : ℚ) ≤ q) : n ≤ rne q := by
  have := rne_mono h
  rwa [rne_intCast] at this

theorem rne_le {n : ℤ} {q : ℚ} (h : q ≤ (n : ℚ)) : rne q ≤ n := by
  have := rne_mono h
  rwa [rne_intCast] at this

theorem rne_eq_of_abs_lt {n : ℤ} {q : ℚ} (h : |q - n| < 1 / 2) : rne q = n := by
  rw [abs_lt] at h
  obtain ⟨h1, h2⟩ := h
  by_cases hq : (n : ℚ) ≤ q
  · have hf : ⌊q⌋ = n := by
      rw [Int.floor_eq_iff]
      constructor <;> linarith
    unfold rne
    rw [hf, if_pos (by linarith)]
  · have hf : ⌊q⌋ = n - 1 := by
      rw [Int.floor_eq_iff]
      push_cast
      constructor <;> linarith
    unfold rne
    rw [hf]
    push_cast
    rw [if_neg (by linarith), if_pos (by linarith)]
    ring



theorem ulp_pos (x : ℚ) : 0 < ulp x := zpow_pos (by norm_num) _

theorem exponent_ge (x : ℚ) : -1022 ≤ exponent x := by
  unfold exponent
  split_ifs
  · exact le_refl _
  · exact le_max_right _ _

/-- Every number lies below the upper end of its binade. -/
theorem abs_lt_zpow_exponent (x : ℚ) : |x| < 2 ^ (exponent x + 1) := by
  unfold exponent
  split_ifs with h
  · rw [h, abs_zero]; exact zpow_pos (by norm_num) _
  · have h1 : |x| < ((2 : ℕ) : ℚ) ^ (Int.log 2 |x| + 1) :=
      Int.lt_zpow_succ_log_self (by norm_num) _
    rw [Nat.cast_ofNat] at h1
    refine lt_of_lt_of_le h1 (zpow_le_zpow_right₀ (by norm_num) ?_)
    have := le_max_left (Int.log 2 |x|) (-1022)
    omega

/-- Above the subnormal range every number lies above the lower end of its
binade. -/
theorem zpow_exponent_le_abs (x : ℚ) (h : -1022 < exponent x) : 2 ^ exponent x ≤ |x| := by
  unfold exponent at h ⊢
  split_ifs at h ⊢ with h0
  · omega
  · have hx : 0 < |x| := abs_pos.mpr h0
    have h1 : ((2 : ℕ) : ℚ) ^ Int.log 2 |x| ≤ |x| := Int.zpow_log_le_self (by norm_num) hx
    rw [Nat.cast_ofNat] at h1
    have h2 : max (Int.log 2 |x|) (-1022) = Int.log 2 |x| := by
      rcases le_total (Int.log 2 |x|) (-1022) with h3 | h3
      · rw [max_eq_right h3] at h; omega
      · exact max_eq_left h3
    rw [h2]
    exact h1

theorem exponent_mono {x y : ℚ} (h : |x| ≤ |y|) : exponent x ≤ exponent y := by
  by_cases hx : x = 0
  · have : exponent x = -1022 := by unfold exponent; rw [if_pos hx]
    rw [this]; exact exponent_ge y
  · have hx' : 0 < |x| := abs_pos.mpr hx
    have hy : y ≠ 0 := by
      intro hy
      rw [hy, abs_zero] at h
      linarith
    unfold exponent
    rw [if_neg hx, if_neg hy]
    exact max_le_max (Int.log_mono_right hx' h) (le_refl _)

/-- The rounded significand has at most 53 bits. -/
theorem abs_rne_div_ulp_le (x : ℚ) : |rne (x / ulp x)| ≤ 2 ^ 53 := by
  have hu := ulp_pos x
  have hx := abs_lt_zpow_exponent x
  have hq : |x / ulp x| < 2 ^ 53 := by
    rw [abs_div, abs_of_pos hu, div_lt_iff₀ hu]
    have : (2 : ℚ) ^ (exponent x + 1) = 2 ^ 53 * ulp x := by
      unfold ulp
      rw [show ((2 : ℚ) ^ 53) = (2 : ℚ) ^ (53 : ℤ) by norm_cast, ← zpow_add₀ (by norm_num)]
      congr 1
      ring
    rwa [this] at hx
  rw [abs_lt] at hq
  rw [abs_le]
  constructor
  · have : ((-(2 ^ 53) : ℤ) : ℚ) ≤ x / ulp x := by push_cast; linarith
    exact le_rne this
  · have : x / ulp x ≤ (((2 ^ 53) : ℤ) : ℚ) := by push_cast; linarith
    exact rne_le this

theorem round64_nonneg {x : ℚ} (h : 0 ≤ x) : 0 ≤ round64 x := by
  unfold round64
  have hu := ulp_pos x
  have : (0 : ℤ) ≤ rne (x / ulp x) := le_rne (by simpa using div_nonneg h hu.le)
  have : (0 : ℚ) ≤ (rne (x / ulp x) : ℚ) := by exact_mod_cast this
  positivity

theorem round64_nonpos {x : ℚ} (h : x ≤ 0) : round64 x ≤ 0 := by
  unfold round64
  have hu := ulp_pos x
  have : rne (x / ulp x) ≤ (0 : ℤ) := rne_le (by simpa using div_nonpos_of_nonpos_of_nonneg h hu.le)
  have : (rne (x / ulp x) : ℚ) ≤ 0 := by exact_mod_cast this
  exact mul_nonpos_of_nonpos_of_nonneg this hu.le



theorem two_pow_53_mul_ulp (x : ℚ) : (2 : ℚ) ^ 53 * ulp x = 2 ^ (exponent x + 1) := by
  unfold ulp
  rw [show ((2 : ℚ) ^ 53) = (2 : ℚ) ^ (53 : ℤ) by norm_cast, ← zpow_add₀ (by norm_num)]
  congr 1
  ring

theorem two_pow_52_mul_ulp (x : ℚ) : (2 : ℚ) ^ 52 * ulp x = 2 ^ exponent x := by
  unfold ulp
  rw [show ((2 : ℚ) ^ 52) = (2 : ℚ) ^ (52 : ℤ) by norm_cast, ← zpow_add₀ (by norm_num)]
  congr 1
  ring

/-- Rounding stays inside the closed binade. -/
theorem abs_round64_le (x : ℚ) : |round64 x| ≤ 2 ^ (exponent x + 1) := by
  unfold round64
  have hu := ulp_pos x
  have h := abs_rne_div_ulp_le x
  have h' : |(rne (x / ulp x) : ℚ)| ≤ 2 ^ 53 := by exact_mod_cast h
  rw [abs_mul, abs_of_pos hu, ← two_pow_53_mul_ulp]
  exact mul_le_mul_of_nonneg_right h' hu.le

theorem zpow_exponent_le_round64 {x : ℚ} (hx : 0 < x) (h : -1022 < exponent x) :
    2 ^ exponent x ≤ round64 x := by
  unfold round64
  have hu := ulp_pos x
  have h1 := zpow_exponent_le_abs x h
  rw [abs_of_pos hx, ← two_pow_52_mul_ulp] at h1
  have h2 : (((2 ^ 52 : ℤ)) : ℚ) ≤ x / ulp x := by
    rw [le_div_iff₀ hu]; push_cast; exact h1
  have h3 : ((2 ^ 52 : ℤ) : ℚ) ≤ (rne (x / ulp x) : ℚ) := by exact_mod_cast le_rne h2
  rw [← two_pow_52_mul_ulp]
  push_cast at h3
  exact mul_le_mul_of_nonneg_right h3 hu.le

theorem round64_le_neg_zpow_exponent {x : ℚ} (hx : x < 0) (h : -1022 < exponent x) :
    round64 x ≤ -2 ^ exponent x := by
  unfold round64
  have hu := ulp_pos x
  have h1 := zpow_exponent_le_abs x h
  rw [abs_of_neg hx, ← two_pow_52_mul_ulp] at h1
  have h2 : x / ulp x ≤ (((-(2 ^ 52) : ℤ)) : ℚ) := by
    rw [div_le_iff₀ hu]; push_cast; linarith
  have h3 : (rne (x / ulp x) : ℚ) ≤ ((-(2 ^ 52) : ℤ) : ℚ) := by exact_mod_cast rne_le h2
  rw [← two_pow_52_mul_ulp]
  push_cast at h3
  have := mul_le_mul_of_nonneg_right h3 hu.le
  linarith

theorem round64_eq_of_exponent_eq {x y : ℚ} (h : exponent x = exponent y) (hxy : x ≤ y) :
    round64 x ≤ round64 y := by
  unfold round64
  have hu : ulp x = ulp y := by unfold ulp; rw [h]
  rw [hu]
  have hy := ulp_pos y
  have h1 : rne (x / ulp y) ≤ rne (y / ulp y) := rne_mono (div_le_div_of_nonneg_right hxy hy.le)
  have h2 : (rne (x / ulp y) : ℚ) ≤ (rne (y / ulp y) : ℚ) := by exact_mod_cast h1
  exact mul_le_mul_of_nonneg_right h2 hy.le

/-- Rounding is monotone. -/
theorem round64_mono {x y : ℚ} (hxy : x ≤ y) : round64 x ≤ round64 y := by
  rcases lt_trichotomy 0 x with hx | hx | hx
  · have hy : 0 < y := lt_of_lt_of_le hx hxy
    have he : exponent x ≤ exponent y := exponent_mono (by rwa [abs_of_pos hx, abs_of_pos hy])
    rcases lt_or_eq_of_le he with hlt | heq
    · have h1 := (le_abs_self _).trans (abs_round64_le x)
      have h2 := zpow_exponent_le_round64 hy (lt_of_le_of_lt (exponent_ge x) hlt)
      have h3 : (2 : ℚ) ^ (exponent x + 1) ≤ 2 ^ exponent y :=
        zpow_le_zpow_right₀ (by norm_num) (by omega)
      linarith
    · exact round64_eq_of_exponent_eq heq hxy
  · rw [← hx] at hxy ⊢
    exact (round64_nonpos (le_refl _)).trans (round64_nonneg hxy)
  · rcases le_or_lt 0 y with hy | hy
    · exact (round64_nonpos hx.le).trans (round64_nonneg hy)
    · have he : exponent y ≤ exponent x :=
        exponent_mono (by rw [abs_of_neg hx, abs_of_neg hy]; linarith)
      rcases lt_or_eq_of_le he with hlt | heq
      · have h1 := (neg_abs_le _).trans' (neg_le_neg (abs_round64_le y))
        have h2 := round64_le_neg_zpow_exponent hx (lt_of_le_of_lt (exponent_ge y) hlt)
        have h3 : (2 : ℚ) ^ (exponent y + 1) ≤ 2 ^ exponent x :=
          zpow_le_zpow_right₀ (by norm_num) (by omega)
        linarith
      · exact round64_eq_of_exponent_eq heq.symm hxy



theorem round64_zero : round64 0 = 0 := by
  unfold round64
  rw [zero_div, show ((0 : ℚ)) = ((0 : ℤ) : ℚ) by norm_num, rne_intCast]
  simp

/-- A number whose quotient by its spacing is an integer is its own
rounding. -/
theorem round64_of_div_ulp_int {v : ℚ} {m : ℤ} (h : v / ulp v = m) : round64 v = v := by
  unfold round64
  rw [h, rne_intCast, ← h]
  exact div_mul_cancel₀ _ (ulp_pos v).ne'

/-- Every `n * 2 ^ k` with a significand of at most 53 bits and an exponent
not below that of the least subnormal number is its own rounding. -/
theorem round64_int_mul_zpow (n k : ℤ) (hn : |n| ≤ 2 ^ 53) (hk : -1074 ≤ k) :
    round64 ((n : ℚ) * 2 ^ k) = (n : ℚ) * 2 ^ k := by
  have h2 : (2 : ℚ) ≠ 0 := by norm_num
  rcases le_or_lt (exponent ((n : ℚ) * 2 ^ k)) (k + 52) with hE | hE
  · -- the spacing divides `2 ^ k`
    obtain ⟨j, hj⟩ : ∃ j : ℕ, (j : ℤ) = k + 52 - exponent ((n : ℚ) * 2 ^ k) :=
      ⟨(k + 52 - exponent ((n : ℚ) * 2 ^ k)).toNat, Int.toNat_of_nonneg (by omega)⟩
    apply round64_of_div_ulp_int (m := n * 2 ^ j)
    unfold ulp
    rw [mul_div_assoc, ← zpow_sub₀ h2]
    push_cast
    rw [← zpow_natCast, hj]
    congr 2
    ring
  · -- the significand is `± 2 ^ 53`
    have hE' : -1022 < exponent ((n : ℚ) * 2 ^ k) := by omega
    have h1 := zpow_exponent_le_abs _ hE'
    have hp : (0 : ℚ) < 2 ^ k := zpow_pos (by norm_num) _
    rw [abs_mul, abs_of_pos hp] at h1
    have hn' : |(n : ℚ)| ≤ 2 ^ 53 := by exact_mod_cast hn
    have h3 : (2 : ℚ) ^ exponent ((n : ℚ) * 2 ^ k) ≤ 2 ^ (k + 53) := by
      calc (2 : ℚ) ^ exponent ((n : ℚ) * 2 ^ k) ≤ |(n : ℚ)| * 2 ^ k := h1
        _ ≤ 2 ^ 53 * 2 ^ k := mul_le_mul_of_nonneg_right hn' hp.le
        _ = 2 ^ (k + 53) := by
          rw [show ((2 : ℚ) ^ 53) = (2 : ℚ) ^ (53 : ℤ) by norm_cast, ← zpow_add₀ h2]
          congr 1; ring
    have h4 : exponent ((n : ℚ) * 2 ^ k) ≤ k + 53 := (zpow_le_zpow_iff_right₀ (by norm_num)).mp h3
    have hEq : exponent ((n : ℚ) * 2 ^ k) = k + 53 := by omega
    have h5 : (2 : ℚ) ^ 53 ≤ |(n : ℚ)| := by
      rw [hEq] at h1
      have : (2 : ℚ) ^ (k + 53) = 2 ^ 53 * 2 ^ k := by
        rw [show ((2 : ℚ) ^ 53) = (2 : ℚ) ^ (53 : ℤ) by norm_cast, ← zpow_add₀ h2]
        congr 1; ring
      rw [this] at h1
      exact le_of_mul_le_mul_right h1 hp
    have h6 : |n| = 2 ^ 53 := le_antisymm hn (by exact_mod_cast h5)
    obtain ⟨m, hm⟩ : ∃ m : ℤ, n = 2 * m := by
      rcases abs_choice n with h | h
      · exact ⟨2 ^ 52, by rw [← h, h6]; norm_num⟩
      · exact ⟨-2 ^ 52, by rw [← neg_neg n, ← h, h6]; norm_num⟩
    apply round64_of_div_ulp_int (m := m)
    unfold ulp
    rw [hEq, mul_div_assoc, ← zpow_sub₀ h2, hm]
    have : k - (k + 53 - 52) = -1 := by ring
    rw [this]
    push_cast
    rw [zpow_neg_one]
    field_simp

/-- Rounding a rounded number changes nothing. -/
theorem round64_idem (x : ℚ) : round64 (round64 x) = round64 x := by
  have h := round64_int_mul_zpow (rne (x / ulp x)) (exponent x - 52) (abs_rne_div_ulp_le x)
    (by have := exponent_ge x; omega)
  unfold round64 at h ⊢
  unfold ulp at h ⊢
  exact h

open instrument

/-- The binade of a number between two consecutive powers of two. -/
theorem exponent_eq_of_bounds {x : ℚ} {e : ℤ} (he : -1022 ≤ e) (hlo : 2 ^ e ≤ |x|)
    (hhi : |x| < 2 ^ (e + 1)) : exponent x = e := by
  have hpos : 0 < |x| := lt_of_lt_of_le (zpow_pos (by norm_num) _) hlo
  have hx : x ≠ 0 := abs_pos.mp hpos
  have h1 : e ≤ Int.log 2 |x| := by
    rw [← Int.zpow_le_iff_le_log (by norm_num) hpos, Nat.cast_ofNat]; exact hlo
  have h2 : Int.log 2 |x| < e + 1 := by
    rw [← Int.lt_zpow_iff_log_lt (by norm_num) hpos, Nat.cast_ofNat]; exact hhi
  unfold exponent
  rw [if_neg hx, max_eq_left (by omega)]
  omega

/-- Rounding of a number, given its binade and the integer nearest to its
significand. -/
theorem round64_eq_of_bounds {x : ℚ} {e n : ℤ} (he : -1022 ≤ e) (hlo : 2 ^ e ≤ |x|)
    (hhi : |x| < 2 ^ (e + 1)) (hn : |x / 2 ^ (e - 52) - (n : ℚ)| < 1 / 2) :
    round64 x = (n : ℚ) * 2 ^ (e - 52) := by
  unfold round64 ulp
  rw [exponent_eq_of_bounds he hlo hhi, rne_eq_of_abs_lt hn]

/-- A tie above an odd integer goes up to the even one. -/
theorem rne_add_half_of_odd {m : ℤ} (h : m % 2 = 1) : rne ((m : ℚ) + 1 / 2) = m + 1 := by
  have hf : ⌊(m : ℚ) + 1 / 2⌋ = m := by
    rw [Int.floor_eq_iff]
    constructor <;> linarith
  unfold rne
  rw [hf, if_neg (by norm_num), if_neg (by norm_num), if_neg (by omega)]

/-- A tie above an even integer goes down to it. -/
theorem rne_add_half_of_even {m : ℤ} (h : m % 2 = 0) : rne ((m : ℚ) + 1 / 2) = m := by
  have hf : ⌊(m : ℚ) + 1 / 2⌋ = m := by
    rw [Int.floor_eq_iff]
    constructor <;> linarith
  unfold rne
  rw [hf, if_neg (by norm_num), if_neg (by norm_num), if_pos h]

/-- Rounding of a positive number whose significand lies halfway above an odd
integer. -/
theorem round64_eq_of_tie_odd {x : ℚ} {e m : ℤ} (he : -1022 ≤ e) (hlo : 2 ^ e ≤ x)
    (hhi : x < 2 ^ (e + 1)) (hq : x / 2 ^ (e - 52) = (m : ℚ) + 1 / 2) (hm : m % 2 = 1) :
    round64 x = ((m + 1 : ℤ) : ℚ) * 2 ^ (e - 52) := by
  have hx : 0 < x := lt_of_lt_of_le (zpow_pos (by norm_num) _) hlo
  unfold round64 ulp
  rw [exponent_eq_of_bounds he (by rwa [abs_of_pos hx]) (by rwa [abs_of_pos hx]), hq,
    rne_add_half_of_odd hm]

/-- Rounding of a positive number, given its binade and the integer nearest
to its significand. -/
theorem round64_eq_of_pos {x : ℚ} {e n : ℤ} (he : -1022 ≤ e) (hlo : 2 ^ e ≤ x)
    (hhi : x < 2 ^ (e + 1)) (h1 : (n : ℚ) - 1 / 2 < x / 2 ^ (e - 52))
    (h2 : x / 2 ^ (e - 52) < (n : ℚ) + 1 / 2) : round64 x = (n : ℚ) * 2 ^ (e - 52) := by
  have hx : 0 < x := lt_of_lt_of_le (zpow_pos (by norm_num) _) hlo
  exact round64_eq_of_bounds he (by rwa [abs_of_pos hx]) (by rwa [abs_of_pos hx])
    (by rw [abs_lt]; constructor <;> linarith)

/-- Rounding keeps a number that exceeds the largest finite `double` by at most
one within the finite range. -/
theorem round64_abs_le_max_double {x : ℚ} (h : |x| ≤ max_double + 1) :
    |round64 x| ≤ max_double := by
  have hpos : (0 : ℚ) < max_double + 1 := by norm_num [max_double]
  have hmax : round64 (max_double + 1) = max_double := by
    have := round64_eq_of_pos (x := max_double + 1) (e := 1023) (n := 2 ^ 53 - 1) (by norm_num)
      (by norm_num [max_double]) (by norm_num [max_double]) (by norm_num [max_double])
      (by norm_num [max_double])
    rw [this]
    norm_num [max_double]
  have hmin : round64 (-(max_double + 1)) = -max_double := by
    have := round64_eq_of_bounds (x := -(max_double + 1)) (e := 1023) (n := -(2 ^ 53 - 1))
      (by norm_num)
      (by rw [abs_neg, abs_of_pos hpos]; norm_num [max_double])
      (by rw [abs_neg, abs_of_pos hpos]; norm_num [max_double])
      (by
        rw [abs_lt]
        constructor <;> norm_num [max_double])
    rw [this]
    norm_num [max_double]
  rw [abs_le] at h ⊢
  constructor
  · rw [← hmin]; exact round64_mono (by linarith)
  · rw [← hmax]; exact round64_mono h.2

/-- A `double` less a non-negative amount does not exceed it. -/
theorem double.sub_le {x d : ℚ} (hx : round64 x = x) (hd : 0 ≤ d) : double.sub x d ≤ x := by
  unfold double.sub
  calc round64 (x - d) ≤ round64 x := round64_mono (by linarith)
    _ = x := hx

theorem monthly_period : frequency.monthly.period = 6004799503160661 / 72057594037927936 := by
  unfold frequency.period double.div
  have := round64_eq_of_pos (x := 1 / ((frequency.monthly.value : ℕ) : ℚ)) (e := -4)
    (n := 6004799503160661) (by norm_num)
    (by norm_num [frequency.value]) (by norm_num [frequency.value])
    (by norm_num [frequency.value]) (by norm_num [frequency.value])
  rw [this]
  norm_num



theorem round64_one : round64 1 = 1 := by
  simpa using round64_int_mul_zpow 1 0 (by norm_num) (by norm_num)

namespace instrument

/-! ## The period count -/

theorem frequency.value_pos (f : frequency) : (0 : ℚ) < (f.value : ℚ) := by
  cases f <;> norm_num [frequency.value]

theorem frequency.period_nonneg (f : frequency) : 0 ≤ f.period :=
  round64_nonneg (div_nonneg zero_le_one f.value_pos.le)

theorem frequency.period_le_one (f : frequency) : f.period ≤ 1 := by
  unfold frequency.period double.div
  rw [← round64_one]
  apply round64_mono
  rw [round64_one, div_le_one f.value_pos]
  cases f <;> norm_num [frequency.value]

/-- The counter never decreases. -/
theorem periods.loop_ge (f : frequency) :
    ∀ (fuel : Nat) (u : ℚ) (n r : Nat), periods.loop f fuel u n = some r → n ≤ r := by
  intro fuel
  induction fuel with
  | zero => intro u n r h; cases h
  | succ fuel ih =>
    intro u n r h
    rw [periods.loop] at h
    split_ifs at h with hpos
    · exact Nat.le_of_succ_le (ih _ _ _ h)
    · cases Option.some.inj h
      exact le_refl _

/-- More fuel does not change a result. -/
theorem periods.loop_fuel_mono (f : frequency) (k : Nat) :
    ∀ (fuel : Nat) (u : ℚ) (n r : Nat), periods.loop f fuel u n = some r →
      periods.loop f (fuel + k) u n = some r := by
  intro fuel
  induction fuel with
  | zero => intro u n r h; cases h
  | succ fuel ih =>
    intro u n r h
    rw [periods.loop] at h
    rw [Nat.add_right_comm, periods.loop]
    split_ifs at h ⊢ with hpos
    · exact ih _ _ _ h
    · exact h

theorem periods_pos {fuel : Nat} {u : ℚ} {f : frequency} {p : Nat}
    (h : periods fuel u f = some p) : 1 ≤ p :=
  periods.loop_ge f fuel u 1 p h

theorem periods_fuel_mono {fuel : Nat} {u : ℚ} {f : frequency} {p : Nat} (k : Nat)
    (h : periods fuel u f = some p) : periods (fuel + k) u f = some p :=
  periods.loop_fuel_mono f k fuel u 1 p h

/-- For a non-positive maturity the first test fails. -/
theorem periods_of_nonpos (fuel : Nat) {u : ℚ} (f : frequency) (hu : u ≤ 0) :
    periods (fuel + 1) u f = some 1 := by
  unfold periods
  rw [periods.loop, if_neg]
  have h : double.sub u f.period ≤ 0 := by
    unfold double.sub
    exact round64_nonpos (by have := f.period_nonneg; linarith)
  exact not_lt.mpr h

/-! ### Finite operands give finite results -/

theorem is_double_round64 {x : ℚ} (h : |x| ≤ max_double + 1) : is_double (round64 x) :=
  ⟨round64_idem x, round64_abs_le_max_double h⟩

/-- The running time stays a finite `double`. -/
theorem is_double_sub_period (f : frequency) {u : ℚ} (hu : is_double u) :
    is_double (double.sub u f.period) := by
  apply is_double_round64
  have h1 := abs_sub u f.period
  have h2 : |f.period| ≤ 1 := by
    rw [abs_of_nonneg f.period_nonneg]; exact f.period_le_one
  have h3 := hu.2
  linarith

/-- A coupon payment is a finite `double`. -/
theorem is_double_div_value (f : frequency) {c : ℚ} (hc : is_double c) :
    is_double (double.div c (f.value : ℚ)) := by
  apply is_double_round64
  have hf := f.value_pos
  have h1 : (1 : ℚ) ≤ (f.value : ℚ) := by cases f <;> norm_num [frequency.value]
  have h2 : |c / (f.value : ℚ)| ≤ |c| := by
    rw [abs_div, abs_of_pos hf]
    exact div_le_self (abs_nonneg c) h1
  have h3 := hc.2
  linarith

/-- The final payment is a finite `double`. -/
theorem is_double_add_one {x : ℚ} (hx : is_double x) : is_double (double.add x 1) := by
  apply is_double_round64
  have h1 := abs_add x 1
  have h2 := hx.2
  rw [abs_one] at h1
  linarith

/-! ### The half-year monthly run -/

theorem half_monthly_one :
    double.sub (1 / 2) frequency.monthly.period =
      7505999378950827 / 18014398509481984 := by
  unfold double.sub
  rw [monthly_period]
  have := round64_eq_of_pos
    (x := 1 / 2 - 6004799503160661 / 72057594037927936)
    (e := -2) (n := 7505999378950827) (by norm_num) (by norm_num) (by norm_num) (by norm_num)
    (by norm_num)
  rw [this]
  norm_num

theorem half_monthly_two :
    double.sub (7505999378950827 / 18014398509481984) frequency.monthly.period =
      3002399751580331 / 9007199254740992 := by
  unfold double.sub
  rw [monthly_period]
  have := round64_eq_of_pos
    (x := 7505999378950827 / 18014398509481984 - 6004799503160661 / 72057594037927936)
    (e := -2) (n := 6004799503160662) (by norm_num) (by norm_num) (by norm_num) (by norm_num)
    (by norm_num)
  rw [this]
  norm_num

theorem half_monthly_three :
    double.sub (3002399751580331 / 9007199254740992) frequency.monthly.period =
      4503599627370497 / 18014398509481984 := by
  unfold double.sub
  rw [monthly_period]
  have := round64_eq_of_pos
    (x := 3002399751580331 / 9007199254740992 - 6004799503160661 / 72057594037927936)
    (e := -2) (n := 4503599627370497) (by norm_num) (by norm_num) (by norm_num) (by norm_num)
    (by norm_num)
  rw [this]
  norm_num

theorem half_monthly_four :
    double.sub (4503599627370497 / 18014398509481984) frequency.monthly.period =
      750599937895083 / 4503599627370496 := by
  unfold double.sub
  rw [monthly_period]
  have := round64_eq_of_tie_odd
    (x := 4503599627370497 / 18014398509481984 - 6004799503160661 / 72057594037927936)
    (e := -3) (m := 6004799503160663) (by norm_num) (by norm_num) (by norm_num) (by norm_num)
    (by norm_num)
  rw [this]
  norm_num

theorem half_monthly_five :
    double.sub (750599937895083 / 4503599627370496) frequency.monthly.period =
      6004799503160667 / 72057594037927936 := by
  unfold double.sub
  rw [monthly_period]
  have := round64_eq_of_pos
    (x := 750599937895083 / 4503599627370496 - 6004799503160661 / 72057594037927936)
    (e := -4) (n := 6004799503160667) (by norm_num) (by norm_num) (by norm_num) (by norm_num)
    (by norm_num)
  rw [this]
  norm_num

theorem half_monthly_six :
    double.sub (6004799503160667 / 72057594037927936) frequency.monthly.period =
      3 / 36028797018963968 := by
  unfold double.sub
  rw [monthly_period]
  have := round64_eq_of_pos
    (x := 6004799503160667 / 72057594037927936 - 6004799503160661 / 72057594037927936)
    (e := -54) (n := 6755399441055744) (by norm_num) (by norm_num) (by norm_num) (by norm_num)
    (by norm_num)
  rw [this]
  norm_num

/-- The seventh subtraction is the first to leave nothing positive. -/
theorem half_monthly_seven :
    ¬ 0 < double.sub (3 / 36028797018963968) frequency.monthly.period := by
  unfold double.sub
  rw [monthly_period]
  exact not_lt.mpr (round64_nonpos (by norm_num))

theorem periods_half_monthly : periods 7 (1 / 2) frequency.monthly = some 7 := by
  unfold periods
  rw [periods.loop, half_monthly_one, if_pos (by norm_num),
    periods.loop, half_monthly_two, if_pos (by norm_num),
    periods.loop, half_monthly_three, if_pos (by norm_num),
    periods.loop, half_monthly_four, if_pos (by norm_num),
    periods.loop, half_monthly_five, if_pos (by norm_num),
    periods.loop, half_monthly_six, if_pos (by norm_num),
    periods.loop, if_neg half_monthly_seven]

/-! ## The base constructor -/

/-- The check `is_sorted` holds exactly when adjacent elements never decrease. -/
theorem is_sorted_iff_chain (u : List ℚ) : is_sorted u = true ↔ List.Chain' (· ≤ ·) u := by
  induction u with
  | nil => simp [is_sorted]
  | cons a t ih =>
    cases t with
    | nil => simp [is_sorted]
    | cons b rest =>
      rw [is_sorted, List.chain'_cons, ← ih]
      simp

/-- A sorted sequence is monotone in the index. -/
theorem is_sorted_mono {u : List ℚ} (h : is_sorted u = true) {i j : Nat} {a b : ℚ}
    (hij : i ≤ j) (hi : u[i]? = some a) (hj : u[j]? = some b) : a ≤ b := by
  rcases Nat.eq_or_lt_of_le hij with rfl | hlt
  · rw [hi] at hj
    exact le_of_eq (Option.some.inj hj)
  · have hp : List.Pairwise (· ≤ ·) u := List.chain'_iff_pairwise.mp ((is_sorted_iff_chain u).mp h)
    obtain ⟨hi', rfl⟩ := List.getElem?_eq_some.mp hi
    obtain ⟨hj', rfl⟩ := List.getElem?_eq_some.mp hj
    exact List.pairwise_iff_getElem.mp hp i j hi' hj' hlt

/-- The check `is_sorted` fails exactly when some element is less than its
predecessor. -/
theorem is_sorted_eq_false_iff (u : List ℚ) :
    is_sorted u = false ↔ ∃ i a b, u[i]? = some a ∧ u[i + 1]? = some b ∧ b < a := by
  induction u with
  | nil => simp [is_sorted]
  | cons x t ih =>
    cases t with
    | nil => simp [is_sorted]
    | cons y rest =>
      rw [is_sorted, Bool.and_eq_false_iff, ih]
      constructor
      · rintro (h | ⟨i, a, b, h1, h2, h3⟩)
        · exact ⟨0, x, y, by simp, by simp, by simpa using h⟩
        · exact ⟨i + 1, a, b, by simpa using h1, by simpa using h2, h3⟩
      · rintro ⟨i, a, b, h1, h2, h3⟩
        cases i with
        | zero =>
          left
          simp at h1 h2
          subst h1 h2
          simpa using h3
        | succ i =>
          right
          exact ⟨i, a, b, by simpa using h1, by simpa using h2, h3⟩

theorem is_sorted_replicate (n : Nat) (a : ℚ) : is_sorted (List.replicate n a) = true := by
  induction n with
  | zero => rfl
  | succ n ih =>
    cases n with
    | zero => rfl
    | succ n =>
      rw [List.replicate_succ, List.replicate_succ, is_sorted, ← List.replicate_succ, ih]
      simp

/-- The constructor body as a nested conditional. -/
theorem instrument.ctor_def (u c : List ℚ) :
    instrument.ctor u c =
      if u.length = c.length then
        if is_sorted u = true then .ok (instrument.raw u c) else .error .InvalidArgument
      else .error .InvalidArgument := by
  unfold instrument.ctor ensure
  by_cases h1 : u.length = c.length
  · by_cases h2 : is_sorted u = true
    · simp only [h1, h2, beq_self_eq_true, if_true]; rfl
    · simp only [h1, h2, beq_self_eq_true, if_true, if_false]; rfl
  · have h1' : (u.length == c.length) = false := by simpa using h1
    simp only [h1, h1', if_false]
    rfl

/-- The constructor succeeds exactly when both checks pass, and then stores
the sequences unchanged. -/
theorem instrument.ctor_eq_ok_iff (u c : List ℚ) (z : instrument) :
    instrument.ctor u c = .ok z ↔
      u.length = c.length ∧ is_sorted u = true ∧ z = instrument.raw u c := by
  rw [instrument.ctor_def]
  by_cases h1 : u.length = c.length
  · by_cases h2 : is_sorted u = true
    · rw [if_pos h1, if_pos h2]
      constructor
      · intro h
        exact ⟨h1, h2, (Except.ok.inj h).symm⟩
      · rintro ⟨_, _, rfl⟩
        rfl
    · rw [if_pos h1, if_neg h2]
      constructor
      · intro h; cases h
      · rintro ⟨_, h, _⟩; exact absurd h h2
  · rw [if_neg h1]
    constructor
    · intro h; cases h
    · rintro ⟨h, _⟩; exact absurd h h1

/-- The constructor raises exactly when one of the two checks fails. -/
theorem instrument.ctor_eq_error_iff (u c : List ℚ) :
    instrument.ctor u c = .error .InvalidArgument ↔
      u.length ≠ c.length ∨ is_sorted u = false := by
  rw [instrument.ctor_def]
  by_cases h1 : u.length = c.length
  · by_cases h2 : is_sorted u = true
    · rw [if_pos h1, if_pos h2]
      constructor
      · intro h; cases h
      · rintro (h | h)
        · exact absurd h1 h
        · rw [h2] at h; cases h
    · rw [if_pos h1, if_neg h2]
      exact ⟨fun _ => Or.inr (by simpa using h2), fun _ => rfl⟩
  · rw [if_neg h1]
    exact ⟨fun _ => Or.inl h1, fun _ => rfl⟩

/-! ## The bond schedule -/

theorem bond.loop_length (c : ℚ) (f : frequency) :
    ∀ (i : Nat) (u : ℚ) (us cs : List ℚ),
      (bond.loop c f i u us cs).1.length = us.length ∧
        (bond.loop c f i u us cs).2.length = cs.length := by
  intro i
  induction i with
  | zero => intro u us cs; exact ⟨rfl, rfl⟩
  | succ i ih =>
    intro u us cs
    rw [bond.loop]
    have h := ih (double.sub u f.period) (us.set i u) (cs.set i (double.div c (f.value : ℚ)))
    simpa using h

/-- The loop writes the running time, after `0, 1, 2, …` subtractions of the
period, downwards from index `i - 1` and leaves the entries from `i` on
untouched. -/
theorem bond.loop_times (c : ℚ) (f : frequency) :
    ∀ (i : Nat) (u : ℚ) (us cs : List ℚ), i ≤ us.length → ∀ j : Nat,
      (bond.loop c f i u us cs).1[j]? =
        if j < i then some ((fun x => double.sub x f.period)^[i - 1 - j] u) else us[j]? := by
  intro i
  induction i with
  | zero => intro u us cs _ j; simp [bond.loop]
  | succ i ih =>
    intro u us cs hi j
    rw [bond.loop, ih _ _ _ (by simpa using Nat.le_of_succ_le hi) j]
    by_cases h1 : j < i
    · have h2 : i + 1 - 1 - j = (i - 1 - j) + 1 := by omega
      rw [if_pos h1, if_pos (Nat.lt_succ_of_lt h1), h2, Function.iterate_succ_apply]
    · rw [if_neg h1, List.getElem?_set]
      by_cases h3 : i = j
      · subst h3
        have h4 : i + 1 - 1 - i = 0 := by omega
        rw [if_pos rfl, if_pos (Nat.lt_of_succ_le hi), if_pos (Nat.lt_succ_self i), h4]
        rfl
      · rw [if_neg h3, if_neg (by omega)]

/-- The loop writes `c / f` at every index below `i`. -/
theorem bond.loop_cashes (c : ℚ) (f : frequency) :
    ∀ (i : Nat) (u : ℚ) (us cs : List ℚ), i ≤ cs.length → ∀ j : Nat,
      (bond.loop c f i u us cs).2[j]? =
        if j < i then some (double.div c (f.value : ℚ)) else cs[j]? := by
  intro i
  induction i with
  | zero => intro u us cs _ j; simp [bond.loop]
  | succ i ih =>
    intro u us cs hi j
    rw [bond.loop, ih _ _ _ (by simpa using Nat.le_of_succ_le hi) j]
    by_cases h1 : j < i
    · rw [if_pos h1, if_pos (Nat.lt_succ_of_lt h1)]
    · rw [if_neg h1, List.getElem?_set]
      by_cases h3 : i = j
      · subst h3
        rw [if_pos rfl, if_pos (Nat.lt_of_succ_le hi), if_pos (Nat.lt_succ_self i)]
      · rw [if_neg h3, if_neg (by omega)]

/-- The vectors the constructor body leaves: the result of the loop on the
zero-filled vectors of the base constructor, with the notional added. -/
theorem bond.body_eq (p : Nat) (u c : ℚ) (f : frequency) :
    bond.body p u c f = .ok (instrument.raw
      (bond.loop c f p u (List.replicate p 0) (List.replicate p 0)).1
      ((bond.loop c f p u (List.replicate p 0) (List.replicate p 0)).2.set (p - 1)
        (double.add ((bond.loop c f p u (List.replicate p 0) (List.replicate p 0)).2.getD
          (p - 1) 0) 1))) := by
  unfold bond.body
  rw [instrument.ctor_def, if_pos (by simp), if_pos (is_sorted_replicate _ _)]
  simp [bind, Except.bind, pure, Except.pure, instrument.size]

/-- The schedule the constructor body leaves, entry by entry. -/
theorem bond.body_entries (p : Nat) (hp : 1 ≤ p) (u c : ℚ) (f : frequency) :
    ∃ z : instrument, bond.body p u c f = .ok z ∧
      z.u.length = p ∧ z.c.length = p ∧
      (∀ i : Nat, i < p →
        z.u[i]? = some ((fun x => double.sub x f.period)^[p - 1 - i] u)) ∧
      (∀ i : Nat, i < p - 1 → z.c[i]? = some (double.div c (f.value : ℚ))) ∧
      z.c[p - 1]? = some (double.add (double.div c (f.value : ℚ)) 1) := by
  have hlen := bond.loop_length c f p u (List.replicate p 0) (List.replicate p 0)
  have ht := bond.loop_times c f p u (List.replicate p 0) (List.replicate p 0) (by simp)
  have hc := bond.loop_cashes c f p u (List.replicate p 0) (List.replicate p 0) (by simp)
  refine ⟨_, bond.body_eq p u c f, ?_, ?_, ?_, ?_, ?_⟩
  · simpa using hlen.1
  · simpa using hlen.2
  · intro i hi
    rw [ht i, if_pos hi]
  · intro i hi
    show (List.set _ _ _)[i]? = _
    rw [List.getElem?_set, if_neg (by omega), hc i, if_pos (by omega)]
  · show (List.set _ _ _)[p - 1]? = _
    have hl : p - 1 < (bond.loop c f p u (List.replicate p 0) (List.replicate p 0)).2.length := by
      rw [hlen.2]; simp; omega
    rw [List.getElem?_set, if_pos rfl, if_pos hl, List.getD_eq_getElem?_getD,
      hc (p - 1), if_pos (by omega)]
    rfl

/-- The constructor returns exactly when `periods` does, and then returns what
the body leaves. -/
theorem bond_eq_some_iff (fuel : Nat) (u c : ℚ) (f : frequency) (r : Except Error instrument) :
    bond fuel u c f = some r ↔ ∃ p : Nat, periods fuel u f = some p ∧ r = bond.body p u c f := by
  unfold bond
  cases h : periods fuel u f with
  | none =>
    constructor
    · intro h'; cases h'
    · rintro ⟨p, hp, -⟩; cases hp
  | some p =>
    constructor
    · intro h'
      exact ⟨p, rfl, (Option.some.inj h').symm⟩
    · rintro ⟨q, hq, rfl⟩
      cases Option.some.inj hq
      rfl

theorem bond_of_periods {fuel : Nat} {u : ℚ} {f : frequency} {p : Nat} (c : ℚ)
    (h : periods fuel u f = some p) : bond fuel u c f = some (bond.body p u c f) :=
  (bond_eq_some_iff fuel u c f _).mpr ⟨p, h, rfl⟩

/-- A sequence whose entries never decrease along the index passes
`is_sorted`. -/
theorem is_sorted_of_mono (u : List ℚ)
    (h : ∀ (i j : Nat) (a b : ℚ), i < j → u[i]? = some a → u[j]? = some b → a ≤ b) :
    is_sorted u = true := by
  rw [is_sorted_iff_chain, List.chain'_iff_pairwise, List.pairwise_iff_getElem]
  intro i j hi hj hij
  exact h i j _ _ hij (List.getElem?_eq_getElem hi) (List.getElem?_eq_getElem hj)

/-- The running time of a `double` maturity stays a rounded number. -/
theorem round64_iterate_sub (f : frequency) {u : ℚ} (hu : round64 u = u) (k : Nat) :
    round64 ((fun x => double.sub x f.period)^[k] u) = (fun x => double.sub x f.period)^[k] u := by
  cases k with
  | zero => exact hu
  | succ k =>
    rw [Function.iterate_succ_apply']
    exact round64_idem _

/-- The running time of a `double` maturity never grows. -/
theorem iterate_sub_antitone (f : frequency) {u : ℚ} (hu : round64 u = u) {j k : Nat}
    (hjk : j ≤ k) :
    (fun x => double.sub x f.period)^[k] u ≤ (fun x => double.sub x f.period)^[j] u := by
  induction k with
  | zero =>
    cases Nat.le_zero.mp hjk
    exact le_refl _
  | succ k ih =>
    rcases Nat.eq_or_lt_of_le hjk with rfl | hlt
    · exact le_refl _
    · rw [Function.iterate_succ_apply']
      exact (double.sub_le (round64_iterate_sub f hu k) f.period_nonneg).trans
        (ih (Nat.le_of_lt_succ hlt))

/-- What the two checks of the base constructor give on the finished vectors
of a bond with a `double` maturity: they pass. -/
theorem bond_wf (fuel : Nat) (u c : ℚ) (f : frequency) (z : instrument) (hu : is_double u)
    (h : bond fuel u c f = some (.ok z)) :
    z.u.length = z.c.length ∧ is_sorted z.u = true := by
  obtain ⟨p, hp, hbody⟩ := (bond_eq_some_iff fuel u c f _).mp h
  obtain ⟨z', hz, hlu, hlc, htime, -, -⟩ := bond.body_entries p (periods_pos hp) u c f
  rw [← hbody] at hz
  cases Except.ok.inj hz
  refine ⟨hlu.trans hlc.symm, is_sorted_of_mono _ ?_⟩
  intro i j a b hij hi hj
  have hj' : j < p := by
    rw [← hlu]; exact (List.getElem?_eq_some.mp hj).1
  rw [htime i (by omega)] at hi
  rw [htime j hj'] at hj
  cases Option.some.inj hi
  cases Option.some.inj hj
  exact iterate_sub_antitone f hu.1 (by omega)

/-! ## Earliest and latest cash flow -/

/-- Each of the three ways of building an instrument leaves the two vectors
of equal length and the times sorted. -/
theorem constructed_wf (z : instrument) (u c : List ℚ) (t a U C : ℚ) (f : frequency)
    (fuel : Nat)
    (h : instrument.ctor u c = .ok z ∨ zero_coupon_bond t a = .ok z ∨
      (is_double U ∧ bond fuel U C f = some (.ok z))) :
    z.u.length = z.c.length ∧ is_sorted z.u = true := by
  rcases h with h | h | ⟨hU, h⟩
  · obtain ⟨h1, h2, rfl⟩ := (instrument.ctor_eq_ok_iff u c z).mp h
    exact ⟨h1, h2⟩
  · obtain ⟨h1, h2, rfl⟩ := (instrument.ctor_eq_ok_iff [t] [a] z).mp h
    exact ⟨h1, h2⟩
  · exact bond_wf fuel U C f z hU h

/-- On a non-empty instrument with equally long vectors and sorted times,
`first` and `last` read the entries at index `0` and `size - 1`, and every
time lies between theirs. -/
theorem instrument.first_last_of_wf (z : instrument) (hl : z.u.length = z.c.length)
    (hs : is_sorted z.u = true) (hn : 1 ≤ z.size) :
    ∃ t0 a0 tn an : ℚ,
      z.u[0]? = some t0 ∧ z.c[0]? = some a0 ∧
      z.u[z.size - 1]? = some tn ∧ z.c[z.size - 1]? = some an ∧
      z.first = some (t0, a0) ∧ z.last = some (tn, an) ∧
      ∀ (i : Nat) (ti : ℚ), z.u[i]? = some ti → t0 ≤ ti ∧ ti ≤ tn := by
  have hu0 : 0 < z.u.length := hn
  have hc0 : 0 < z.c.length := hl ▸ hu0
  have hun : z.size - 1 < z.u.length := by unfold instrument.size; omega
  have hcn : z.size - 1 < z.c.length := by unfold instrument.size; omega
  have e1 : z.u[0]? = some z.u[0] := List.getElem?_eq_getElem hu0
  have e2 : z.c[0]? = some z.c[0] := List.getElem?_eq_getElem hc0
  have e3 : z.u[z.size - 1]? = some z.u[z.size - 1] := List.getElem?_eq_getElem hun
  have e4 : z.c[z.size - 1]? = some z.c[z.size - 1] := List.getElem?_eq_getElem hcn
  refine ⟨z.u[0], z.c[0], z.u[z.size - 1], z.c[z.size - 1], e1, e2, e3, e4, ?_, ?_, ?_⟩
  · unfold instrument.first
    rw [e1, e2]
  · unfold instrument.last
    rw [if_neg (by omega), e3, e4]
  · intro i ti hi
    have hi' : i < z.u.length := (List.getElem?_eq_some.mp hi).1
    exact ⟨is_sorted_mono hs (Nat.zero_le i) e1 hi,
      is_sorted_mono hs (by unfold instrument.size; omega) hi e3⟩


/-! ### Values of type `double` used below -/

theorem one_le_max_double : 1 ≤ max_double := by
  unfold max_double
  have h1 : (1 : ℚ) ≤ 2 ^ 53 - 1 := by norm_num
  have h2 : (1 : ℚ) ≤ 2 ^ 971 := one_le_pow₀ (by norm_num)
  calc (1 : ℚ) = 1 * 1 := by ring
    _ ≤ (2 ^ 53 - 1) * 2 ^ 971 := mul_le_mul h1 h2 zero_le_one (by linarith)

theorem is_double_zero : is_double 0 :=
  ⟨round64_zero, by rw [abs_zero]; exact zero_le_one.trans one_le_max_double⟩

theorem is_double_half : is_double (1 / 2) := by
  refine ⟨?_, ?_⟩
  · have := round64_int_mul_zpow 1 (-1) (by norm_num) (by norm_num)
    norm_num at this
    simpa using this
  · rw [abs_of_pos (by norm_num)]
    exact le_trans (by norm_num) one_le_max_double

theorem double.div_zero_left (y : ℚ) : double.div 0 y = 0 := by
  unfold double.div
  rw [zero_div, round64_zero]

theorem double.add_zero_one : double.add 0 1 = 1 := by
  unfold double.add
  rw [zero_add, round64_one]

/-- The time left after six subtractions of the monthly period from one half. -/
theorem half_monthly_iterate :
    (fun x => double.sub x frequency.monthly.period)^[6] (1 / 2) = 3 / 36028797018963968 := by
  have h : ∀ (g : ℚ → ℚ) (x : ℚ), g^[6] x = g (g (g (g (g (g x))))) := fun _ _ => rfl
  rw [h, half_monthly_one, half_monthly_two, half_monthly_three, half_monthly_four,
    half_monthly_five, half_monthly_six]

theorem periods_half_monthly_fuel (fuel : Nat) :
    periods (fuel + 7) (1 / 2) frequency.monthly = some 7 := by
  rw [Nat.add_comm]
  exact periods_fuel_mono fuel periods_half_monthly

theorem bond_body_half_monthly :
    bond.body 7 (1 / 2) 0 frequency.monthly = .ok (instrument.raw
      [3 / 36028797018963968, 6004799503160667 / 72057594037927936,
        750599937895083 / 4503599627370496, 4503599627370497 / 18014398509481984,
        3002399751580331 / 9007199254740992, 7505999378950827 / 18014398509481984, 1 / 2]
      [0, 0, 0, 0, 0, 0, 1]) := by
  rw [bond.body_eq]
  rw [bond.loop, half_monthly_one, bond.loop, half_monthly_two, bond.loop, half_monthly_three,
    bond.loop, half_monthly_four, bond.loop, half_monthly_five, bond.loop, half_monthly_six,
    bond.loop, bond.loop]
  simp only [double.div_zero_left]
  simp [List.replicate, double.add_zero_one]

theorem annual_period : frequency.annual.period = 1 := by
  unfold frequency.period double.div
  norm_num [frequency.value, round64_one]

theorem semiannual_period : frequency.semiannual.period = 1 / 2 := by
  unfold frequency.period double.div
  have h : (1 : ℚ) / ((frequency.semiannual.value : ℕ) : ℚ) = 1 / 2 := by
    norm_num [frequency.value]
  rw [h]
  exact is_double_half.1

/-- At `2 ^ 54 + 4` the spacing of the `double` values is 4, and subtracting one
rounds back to the same value. -/
theorem absorbed_sub :
    double.sub 18014398509481988 frequency.annual.period = 18014398509481988 := by
  unfold double.sub
  rw [annual_period]
  have := round64_eq_of_pos (x := 18014398509481988 - 1) (e := 54) (n := 4503599627370497)
    (by norm_num) (by norm_num) (by norm_num) (by norm_num) (by norm_num)
  rw [this]
  norm_num

/-- The loop never leaves `2 ^ 54 + 4`. -/
theorem periods.loop_absorbed :
    ∀ (fuel n : Nat), periods.loop frequency.annual fuel 18014398509481988 n = none := by
  intro fuel
  induction fuel with
  | zero => intro n; rfl
  | succ fuel ih =>
    intro n
    rw [periods.loop, absorbed_sub, if_pos (by norm_num)]
    exact ih _

theorem is_double_absorbed : is_double 18014398509481988 := by
  refine ⟨?_, ?_⟩
  · have := round64_int_mul_zpow 4503599627370497 2 (by norm_num) (by norm_num)
    norm_num at this
    exact this
  · rw [abs_of_pos (by norm_num)]
    unfold max_double
    have h1 : (18014398509481988 : ℚ) ≤ 2 ^ 53 - 1 + (2 ^ 53 - 1) + (2 ^ 53 - 1) := by norm_num
    have h2 : (2 : ℚ) ^ 2 ≤ 2 ^ 971 := pow_le_pow_right₀ (by norm_num) (by norm_num)
    nlinarith

/-- The `double` nearest to 0.05. -/
theorem round64_twentieth : round64 (1 / 20) = 3602879701896397 / 72057594037927936 := by
  have := round64_eq_of_pos (x := 1 / 20) (e := -5) (n := 7205759403792794)
    (by norm_num) (by norm_num) (by norm_num) (by norm_num) (by norm_num)
  rw [this]
  norm_num

theorem twentieth_div_two :
    double.div (3602879701896397 / 72057594037927936) ((frequency.semiannual.value : ℕ) : ℚ) =
      3602879701896397 / 144115188075855872 := by
  unfold double.div
  have := round64_eq_of_pos
    (x := 3602879701896397 / 72057594037927936 / ((frequency.semiannual.value : ℕ) : ℚ))
    (e := -6) (n := 7205759403792794)
    (by norm_num) (by norm_num [frequency.value]) (by norm_num [frequency.value])
    (by norm_num [frequency.value]) (by norm_num [frequency.value])
  rw [this]
  norm_num

theorem fortieth_add_one :
    double.add (3602879701896397 / 144115188075855872) 1 =
      2308094809027379 / 2251799813685248 := by
  unfold double.add
  have := round64_eq_of_pos (x := 3602879701896397 / 144115188075855872 + 1) (e := 0)
    (n := 4616189618054758)
    (by norm_num) (by norm_num) (by norm_num) (by norm_num) (by norm_num)
  rw [this]
  norm_num

/-- A bond of non-positive maturity. -/
theorem bond_of_nonpos (fuel : Nat) (U C : ℚ) (f : frequency) (hU : U ≤ 0) :
    bond (fuel + 1) U C f =
      some (.ok (instrument.raw [U] [double.add (double.div C (f.value : ℚ)) 1])) := by
  rw [bond_of_periods C (periods_of_nonpos fuel f hU), bond.body_eq]
  simp [bond.loop]

/-- The sizes of a bond that was built. -/
theorem bond_lengths (fuel : Nat) (U C : ℚ) (f : frequency) (z : instrument)
    (h : bond fuel U C f = some (.ok z)) :
    periods fuel U f = some z.size ∧ z.u.length = z.c.length ∧ 1 ≤ z.size := by
  obtain ⟨p, hp, hbody⟩ := (bond_eq_some_iff fuel U C f _).mp h
  obtain ⟨z', hz, hlu, hlc, -⟩ := bond.body_entries p (periods_pos hp) U C f
  rw [← hbody] at hz
  cases Except.ok.inj hz
  refine ⟨?_, hlu.trans hlc.symm, ?_⟩
  · rw [hp]; exact congrArg some hlu.symm
  · unfold instrument.size; rw [hlu]; exact periods_pos hp

/-! ## The claims -/

/-- C1, the code at `bond(0.5, 0, monthly)`: the arguments are values of type
`double`; the constructor returns seven cash flows, where `⌈U * f⌉₊` is 6; the
first time is `3 * 2 ^ (-55)`, not the `U - (n - 1 - 0) / f = 0` of the claim
for `n = 7`; and the first two times do not differ by `1 / f`. -/
theorem bond_half_monthly (fuel : Nat) :
    is_double (1 / 2) ∧ is_double 0 ∧
      bond (fuel + 7) (1 / 2) 0 frequency.monthly = some (.ok (instrument.raw
        [3 / 36028797018963968, 6004799503160667 / 72057594037927936,
          750599937895083 / 4503599627370496, 4503599627370497 / 18014398509481984,
          3002399751580331 / 9007199254740992, 7505999378950827 / 18014398509481984, 1 / 2]
        [0, 0, 0, 0, 0, 0, 1])) ∧
      Nat.ceil ((1 / 2 : ℚ) * ((frequency.monthly.value : ℕ) : ℚ)) = 6 ∧
      (3 / 36028797018963968 : ℚ) ≠
        1 / 2 - ((7 - 1 - 0 : ℕ) : ℚ) / ((frequency.monthly.value : ℕ) : ℚ) ∧
      (6004799503160667 / 72057594037927936 - 3 / 36028797018963968 : ℚ) ≠
        1 / ((frequency.monthly.value : ℕ) : ℚ) := by
  refine ⟨is_double_half, is_double_zero, ?_, ?_, ?_, ?_⟩
  · rw [bond_of_periods 0 (periods_half_monthly_fuel fuel), bond_body_half_monthly]
  · have h : (1 / 2 : ℚ) * ((frequency.monthly.value : ℕ) : ℚ) = ((6 : ℕ) : ℚ) := by
      norm_num [frequency.value]
    rw [h, Nat.ceil_natCast]
  · norm_num [frequency.value]
  · norm_num [frequency.value]

/-- C2, as the code has it: constructing an instrument from `u` and `c` raises
exactly when the lengths differ or some adjacent pair decreases,
`u[i + 1] < u[i]`; `std::is_sorted` lets equal neighbours through. -/
theorem instrument_ctor_fails_iff (u c : List ℚ) :
    instrument.ctor u c = .error .InvalidArgument ↔
      (u.length ≠ c.length ∨ ∃ (i : Nat) (a b : ℚ), u[i]? = some a ∧ u[i + 1]? = some b ∧ b < a) := by
  rw [instrument.ctor_eq_error_iff, is_sorted_eq_false_iff]

/-- C2 fails as stated: two cash flows sharing the time 1 form an adjacent
pair with `u[0] ≥ u[1]`, and the constructor accepts them. -/
theorem instrument_ctor_accepts_equal_times :
    ([1, 1] : List ℚ)[0]? = some 1 ∧ ([1, 1] : List ℚ)[0 + 1]? = some 1 ∧ (1 : ℚ) ≥ 1 ∧
      instrument.ctor [1, 1] [10, 20] = .ok (instrument.raw [1, 1] [10, 20]) := by
  refine ⟨rfl, rfl, le_refl _, ?_⟩
  rw [instrument.ctor_eq_ok_iff]
  exact ⟨rfl, by simp [is_sorted], rfl⟩

/-- C3, as the code has it: for every maturity `U ≤ 0`, coupon `C` and
frequency `f`, constructing `bond U C f` raises nothing; `periods U f` returns
1 at its first test and the result is the instrument with the single cash flow
`C / f + 1` (in `double` arithmetic) at time `U`. -/
theorem bond_nonpositive_maturity (fuel : Nat) (U C : ℚ) (f : frequency) (hU : U ≤ 0) :
    periods (fuel + 1) U f = some 1 ∧
      bond (fuel + 1) U C f =
        some (.ok (instrument.raw [U] [double.add (double.div C (f.value : ℚ)) 1])) :=
  ⟨periods_of_nonpos fuel f hU, bond_of_nonpos fuel U C f hU⟩

/-- C3, an instance of the amended claim: maturity 0, coupon 1, annual. -/
theorem bond_nonpositive_maturity_witness :
    (0 : ℚ) ≤ 0 ∧ periods (0 + 1) 0 frequency.annual = some 1 ∧
      bond (0 + 1) 0 1 frequency.annual =
        some (.ok (instrument.raw [0]
          [double.add (double.div 1 ((frequency.annual.value : ℕ) : ℚ)) 1])) :=
  ⟨le_refl _, bond_nonpositive_maturity 0 0 1 frequency.annual (le_refl _)⟩

/-- C3 fails as stated: with maturity `-1 ≤ 0` and coupon 0.05 (the `double`
nearest to it) the bond constructor returns an instrument instead of raising. -/
theorem bond_negative_maturity_succeeds :
    (-1 : ℚ) ≤ 0 ∧ round64 (1 / 20) = 3602879701896397 / 72057594037927936 ∧
      bond 1 (-1) (3602879701896397 / 72057594037927936) frequency.semiannual =
        some (.ok (instrument.raw [-1] [2308094809027379 / 2251799813685248])) := by
  refine ⟨by norm_num, round64_twentieth, ?_⟩
  rw [show (1 : Nat) = 0 + 1 from rfl, bond_of_nonpos 0 _ _ _ (by norm_num), twentieth_div_two,
    fortieth_add_one]

/-- C4, the code at `bond(0.5, C, monthly)`, for every coupon `C`: the maturity
is a value of type `double`; the constructor returns an instrument whose
earliest time is `3 * 2 ^ (-55)`; this is not of the form `U - k / f`, and it is
below `1 / 12`, the smallest positive value of that form. -/
theorem bond_half_monthly_earliest (fuel : Nat) (C : ℚ) :
    is_double (1 / 2) ∧
      ∃ z : instrument, bond (fuel + 7) (1 / 2) C frequency.monthly = some (.ok z) ∧
        z.size = 7 ∧ z.u[0]? = some (3 / 36028797018963968) ∧
        (∀ k : Nat, (3 / 36028797018963968 : ℚ) ≠
          1 / 2 - (k : ℚ) / ((frequency.monthly.value : ℕ) : ℚ)) ∧
        (∀ k : Nat, 0 < (1 / 2 : ℚ) - (k : ℚ) / ((frequency.monthly.value : ℕ) : ℚ) →
          1 / 12 ≤ (1 / 2 : ℚ) - (k : ℚ) / ((frequency.monthly.value : ℕ) : ℚ)) ∧
        (3 / 36028797018963968 : ℚ) < 1 / 12 := by
  refine ⟨is_double_half, ?_⟩
  obtain ⟨z, hz, hlu, -, htime, -, -⟩ :=
    bond.body_entries 7 (by norm_num) (1 / 2) C frequency.monthly
  have hv : ((frequency.monthly.value : ℕ) : ℚ) = 12 := by norm_num [frequency.value]
  have hcase : ∀ k : Nat, (k : ℚ) ≤ 5 ∨ (6 : ℚ) ≤ (k : ℚ) := by
    intro k
    rcases Nat.lt_or_ge k 6 with h | h
    · left; exact_mod_cast Nat.le_of_lt_succ h
    · right; exact_mod_cast h
  refine ⟨z, ?_, hlu, ?_, ?_, ?_, by norm_num⟩
  · rw [bond_of_periods C (periods_half_monthly_fuel fuel), hz]
  · rw [htime 0 (by norm_num)]
    exact congrArg some half_monthly_iterate
  · intro k hk
    rw [hv] at hk
    rcases hcase k with h | h
    · have : (1 / 12 : ℚ) ≤ 1 / 2 - (k : ℚ) / 12 := by linarith
      rw [← hk] at this
      norm_num at this
    · have : (1 / 2 : ℚ) - (k : ℚ) / 12 ≤ 0 := by linarith
      rw [← hk] at this
      norm_num at this
  · intro k hk
    rw [hv] at hk ⊢
    rcases hcase k with h | h
    · linarith
    · exfalso; linarith

/-- C5, the code at `periods(0.5, monthly)` and at `periods(2 ^ 54 + 4, annual)`:
both maturities are values of type `double`; the first call returns 7, where
the least `n ≥ 1` with `U - n / f ≤ 0` is `⌈U * f⌉₊ = 6`; the second call never
returns, however many tests the loop may run. -/
theorem periods_half_monthly_count (fuel : Nat) :
    is_double (1 / 2) ∧ periods (fuel + 7) (1 / 2) frequency.monthly = some 7 ∧
      Nat.ceil ((1 / 2 : ℚ) * ((frequency.monthly.value : ℕ) : ℚ)) = 6 ∧
      (1 / 2 : ℚ) - ((6 : ℕ) : ℚ) / ((frequency.monthly.value : ℕ) : ℚ) ≤ 0 ∧
      is_double 18014398509481988 ∧
      periods fuel 18014398509481988 frequency.annual = none := by
  refine ⟨is_double_half, periods_half_monthly_fuel fuel, ?_, ?_, is_double_absorbed,
    periods.loop_absorbed fuel 1⟩
  · have h : (1 / 2 : ℚ) * ((frequency.monthly.value : ℕ) : ℚ) = ((6 : ℕ) : ℚ) := by
      norm_num [frequency.value]
    rw [h, Nat.ceil_natCast]
  · norm_num [frequency.value]

/-- C6: for every time `u` and amount `c`, `zero_coupon_bond u c` is built
without error, has size 1 with the single cash flow `c` at time `u`, and its
`first` and `last` are both `(u, c)`; with `c` omitted the cash flow is 1. -/
theorem zero_coupon_bond_spec (u c : ℚ) :
    (∃ z : instrument, zero_coupon_bond u c = .ok z ∧ z.size = 1 ∧
        z.u = [u] ∧ z.c = [c] ∧ z.first = some (u, c) ∧ z.last = some (u, c)) ∧
      (∃ z : instrument, zero_coupon_bond u = .ok z ∧ z.size = 1 ∧
        z.u = [u] ∧ z.c = [1] ∧ z.first = some (u, 1) ∧ z.last = some (u, 1)) := by
  have key : ∀ a : ℚ, zero_coupon_bond u a = .ok (instrument.raw [u] [a]) := by
    intro a
    unfold zero_coupon_bond
    rw [instrument.ctor_eq_ok_iff]
    exact ⟨rfl, rfl, rfl⟩
  exact ⟨⟨_, key c, rfl, rfl, rfl, rfl, rfl⟩, ⟨_, key 1, rfl, rfl, rfl, rfl, rfl⟩⟩

/-- C7: for every instrument `z` that one of the three constructors returned
(the bond from a maturity of type `double`) and that has at least one cash
flow, `first` is the pair at index 0, `last` the pair at index `size - 1`, and
every time of `z` lies between the time of `first` and the time of `last`. -/
theorem first_last_spec (z : instrument) (u c : List ℚ) (t a U C : ℚ) (f : frequency)
    (fuel : Nat)
    (h : instrument.ctor u c = .ok z ∨ zero_coupon_bond t a = .ok z ∨
      (is_double U ∧ bond fuel U C f = some (.ok z)))
    (hn : 1 ≤ z.size) :
    ∃ t0 a0 tn an : ℚ,
      z.u[0]? = some t0 ∧ z.c[0]? = some a0 ∧
      z.u[z.size - 1]? = some tn ∧ z.c[z.size - 1]? = some an ∧
      z.first = some (t0, a0) ∧ z.last = some (tn, an) ∧
      ∀ (i : Nat) (ti : ℚ), z.u[i]? = some ti → t0 ≤ ti ∧ ti ≤ tn :=
  instrument.first_last_of_wf z (constructed_wf z u c t a U C f fuel h).1
    (constructed_wf z u c t a U C f fuel h).2 hn

/-- C7, an instance: the explicit instrument with times 1, 2, 3 and amounts
4, 5, 6 has `first = (1, 4)` and `last = (3, 6)`. -/
theorem first_last_spec_witness :
    instrument.ctor [1, 2, 3] [4, 5, 6] = .ok (instrument.raw [1, 2, 3] [4, 5, 6]) ∧
      1 ≤ (instrument.raw [1, 2, 3] [4, 5, 6]).size ∧
      (instrument.raw [1, 2, 3] [4, 5, 6]).first = some (1, 4) ∧
      (instrument.raw [1, 2, 3] [4, 5, 6]).last = some (3, 6) := by
  have hc : instrument.ctor [1, 2, 3] [4, 5, 6] = .ok (instrument.raw [1, 2, 3] [4, 5, 6]) := by
    rw [instrument.ctor_eq_ok_iff]
    exact ⟨rfl, by norm_num [is_sorted], rfl⟩
  have hn : 1 ≤ (instrument.raw [1, 2, 3] [4, 5, 6]).size := by decide
  obtain ⟨t0, a0, tn, an, e1, e2, e3, e4, hfirst, hlast, -⟩ :=
    first_last_spec (instrument.raw [1, 2, 3] [4, 5, 6]) [1, 2, 3] [4, 5, 6] 0 0 0 0
      frequency.annual 0 (Or.inl hc) hn
  simp [instrument.size] at e1 e2 e3 e4
  subst e1 e2 e3 e4
  exact ⟨hc, hn, hfirst, hlast⟩

/-- C8, as the code has it: for every instrument `z` that one of the three
constructors returned, `size` is the common length of the time and the cash
sequence; it is 1 for a zero-coupon bond and at least 1 for a bond, and for an
instrument built from explicit sequences it is at least 1 exactly when the
given sequences are not empty. -/
theorem size_spec (z : instrument) (u c : List ℚ) (t a U C : ℚ) (f : frequency) (fuel : Nat)
    (h : instrument.ctor u c = .ok z ∨ zero_coupon_bond t a = .ok z ∨
      bond fuel U C f = some (.ok z)) :
    z.size = z.u.length ∧ z.u.length = z.c.length ∧
      (zero_coupon_bond t a = .ok z → z.size = 1) ∧
      (bond fuel U C f = some (.ok z) → periods fuel U f = some z.size ∧ 1 ≤ z.size) ∧
      (instrument.ctor u c = .ok z → z.size = u.length ∧ (1 ≤ z.size ↔ u ≠ [])) := by
  refine ⟨rfl, ?_, ?_, ?_, ?_⟩
  · rcases h with h | h | h
    · obtain ⟨h1, -, rfl⟩ := (instrument.ctor_eq_ok_iff u c z).mp h
      exact h1
    · obtain ⟨h1, -, rfl⟩ := (instrument.ctor_eq_ok_iff [t] [a] z).mp h
      exact h1
    · exact (bond_lengths fuel U C f z h).2.1
  · intro hz
    obtain ⟨-, -, rfl⟩ := (instrument.ctor_eq_ok_iff [t] [a] z).mp hz
    rfl
  · intro hz
    exact ⟨(bond_lengths fuel U C f z hz).1, (bond_lengths fuel U C f z hz).2.2⟩
  · intro hz
    obtain ⟨-, -, rfl⟩ := (instrument.ctor_eq_ok_iff u c z).mp hz
    refine ⟨rfl, ?_⟩
    show 1 ≤ u.length ↔ u ≠ []
    rw [Nat.one_le_iff_ne_zero, ne_eq, List.length_eq_zero]

/-- C8, an instance of the amended claim: the bond of maturity 0. -/
theorem size_spec_witness :
    ∃ z : instrument, bond 1 0 1 frequency.quarterly = some (.ok z) ∧
      z.size = z.u.length ∧ z.u.length = z.c.length ∧ 1 ≤ z.size := by
  have hz := bond_of_nonpos 0 0 1 frequency.quarterly (le_refl _)
  obtain ⟨h1, h2, -, h3, -⟩ :=
    size_spec _ [] [] 0 0 0 1 frequency.quarterly 1 (Or.inr (Or.inr hz))
  exact ⟨_, hz, h1, h2, (h3 hz).2⟩

/-- C8 fails as stated: the empty pair of sequences passes both checks of the
constructor, and the instrument it yields has size 0. -/
theorem empty_instrument_constructible :
    instrument.ctor [] [] = .ok (instrument.raw [] []) ∧
      (instrument.raw [] []).size = 0 ∧ ¬ 1 ≤ (instrument.raw [] []).size := by
  refine ⟨?_, rfl, by decide⟩
  rw [instrument.ctor_eq_ok_iff]
  exact ⟨rfl, rfl, rfl⟩

end instrument

end fms

/-! ## The host entry point -/

namespace xll

/-- The handle loop succeeds exactly when every handle resolves, and then
returns the resolved instruments in order. -/
theorem instruments_eq_ok_iff {Curve : Type} (H : Host Curve) (xs : List HANDLEX)
    (is : List instrument) :
    instruments H xs = .ok is ↔ xs.map H.instrument_handle = is.map some := by
  induction xs generalizing is with
  | nil =>
    cases is with
    | nil => exact ⟨fun _ => rfl, fun _ => rfl⟩
    | cons z zs =>
      constructor
      · intro h; cases h
      · intro h; cases h
  | cons x xs ih =>
    rw [instruments]
    cases hx : H.instrument_handle x with
    | none =>
      constructor
      · intro h; cases h
      · intro h
        rw [List.map_cons, hx] at h
        cases is with
        | nil => cases h
        | cons z zs => cases h
    | some z =>
      cases hr : instruments H xs with
      | error e =>
        constructor
        · intro h; cases h
        · intro h
          rw [List.map_cons, hx] at h
          cases is with
          | nil => cases h
          | cons z' zs =>
            rw [List.map_cons] at h
            have h2 := (ih zs).mpr (List.cons.inj h).2
            rw [hr] at h2
            cases h2
      | ok rest =>
        have hrest := (ih rest).mp hr
        constructor
        · intro h
          cases Except.ok.inj h
          rw [List.map_cons, List.map_cons, hx, hrest]
        · intro h
          rw [List.map_cons, hx] at h
          cases is with
          | nil => cases h
          | cons z' zs =>
            rw [List.map_cons] at h
            obtain ⟨h1, h2⟩ := List.cons.inj h
            cases Option.some.inj h1
            have h3 := (ih zs).mpr h2
            rw [hr] at h3
            cases Except.ok.inj h3
            rfl

/-- The handle loop raises when some handle does not resolve. -/
theorem instruments_error_of_invalid {Curve : Type} (H : Host Curve) (xs : List HANDLEX)
    (h : ∃ x ∈ xs, H.instrument_handle x = none) :
    ∃ e : Error, instruments H xs = .error e := by
  cases hr : instruments H xs with
  | error e => exact ⟨e, rfl⟩
  | ok is =>
    exfalso
    obtain ⟨x, hx, hnone⟩ := h
    have hm := (instruments_eq_ok_iff H xs is).mp hr
    have hmem : H.instrument_handle x ∈ xs.map H.instrument_handle := List.mem_map_of_mem _ hx
    rw [hm, hnone] at hmem
    simp at hmem

/-- The checks before the call as a nested conditional. -/
theorem validate_def {Curve : Type} (H : Host Curve) (pi pp : List ℚ) :
    validate H pi pp =
      if 0 < pi.length then
        if 0 < pp.length then
          if pi.length = pp.length then instruments H pi else .error .InvalidArgument
        else .error .InvalidArgument
      else .error .InvalidArgument := by
  unfold validate ensure
  by_cases h1 : 0 < pi.length
  · by_cases h2 : 0 < pp.length
    · by_cases h3 : pi.length = pp.length
      · simp only [h1, h2, h3, gt_iff_lt, decide_True, beq_self_eq_true, if_true]; rfl
      · have h3' : (pi.length == pp.length) = false := by simpa using h3
        simp only [h1, h2, h3, h3', gt_iff_lt, decide_True, if_true, if_false]; rfl
    · simp only [h1, h2, gt_iff_lt, decide_True, decide_False, if_true, if_false]; rfl
  · simp only [h1, gt_iff_lt, decide_False, if_false]; rfl

end xll

open fms fms.instrument xll

/-- The returned handle is valid only when the checks passed and both the
bootstrap and the new handle succeeded. -/
theorem xll_curve_pwflat_bootstrap_valid {Curve : Type} (H : Host Curve) (pi pp : List ℚ)
    (h : (xll_curve_pwflat_bootstrap_ H pi pp).h ≠ H.INVALID_HANDLEX) :
    ∃ (is : List instrument) (f : Curve), validate H pi pp = .ok is ∧
      H.bootstrap is pp = .ok f ∧
      H.curve_handle f = some (xll_curve_pwflat_bootstrap_ H pi pp).h ∧
      (xll_curve_pwflat_bootstrap_ H pi pp).bootstrap_calls = 1 := by
  unfold xll_curve_pwflat_bootstrap_ at h ⊢
  cases hv : validate H pi pp with
  | error e => rw [hv] at h; exact absurd rfl h
  | ok is =>
    rw [hv] at h
    simp only at h ⊢
    unfold publish at h ⊢
    cases hb : H.bootstrap is pp with
    | error e => rw [hb] at h; exact absurd rfl h
    | ok f =>
      rw [hb] at h
      cases hc : H.curve_handle f with
      | none =>
        simp only [bind, Except.bind, hc] at h
        exact absurd rfl h
      | some x =>
        refine ⟨is, f, rfl, hb, ?_, ?_⟩
        · simp only [bind, Except.bind, hc]; rfl
        · simp only [bind, Except.bind, hc]; rfl

/-- Any failed check makes `validate` raise. -/
theorem validate_error_of_invalid {Curve : Type} (H : Host Curve) (pi pp : List ℚ)
    (h : pi.length = 0 ∨ pp.length = 0 ∨ pi.length ≠ pp.length ∨
      ∃ x ∈ pi, H.instrument_handle x = none) :
    ∃ e : Error, validate H pi pp = .error e := by
  rw [validate_def]
  by_cases h1 : 0 < pi.length
  · by_cases h2 : 0 < pp.length
    · by_cases h3 : pi.length = pp.length
      · rw [if_pos h1, if_pos h2, if_pos h3]
        rcases h with h | h | h | h
        · omega
        · omega
        · exact absurd h3 h
        · exact instruments_error_of_invalid H pi h
      · rw [if_pos h1, if_pos h2, if_neg h3]; exact ⟨_, rfl⟩
    · rw [if_pos h1, if_neg h2]; exact ⟨_, rfl⟩
  · rw [if_neg h1]; exact ⟨_, rfl⟩

/-- When `validate` succeeds every check has passed. -/
theorem validate_ok {Curve : Type} (H : Host Curve) (pi pp : List ℚ) (is : List instrument)
    (h : validate H pi pp = .ok is) :
    0 < pi.length ∧ 0 < pp.length ∧ pi.length = pp.length ∧
      pi.map H.instrument_handle = is.map some := by
  rw [validate_def] at h
  by_cases h1 : 0 < pi.length
  · by_cases h2 : 0 < pp.length
    · by_cases h3 : pi.length = pp.length
      · rw [if_pos h1, if_pos h2, if_pos h3] at h
        exact ⟨h1, h2, h3, (instruments_eq_ok_iff H pi is).mp h⟩
      · rw [if_pos h1, if_pos h2, if_neg h3] at h; cases h
    · rw [if_pos h1, if_neg h2] at h; cases h
  · rw [if_neg h1] at h; cases h

/-- C10: `xll_curve_pwflat_bootstrap_` always returns a handle (no error leaves
it).  When the handle array is empty, the price array is empty, the sizes
differ, or some instrument handle is invalid, it returns `INVALID_HANDLEX`
without having entered `curve::bootstrap`; and whenever it returns a handle
other than `INVALID_HANDLEX`, all these checks have passed, `curve::bootstrap`
has returned a curve for the resolved instruments, and the handle is that of
this curve. -/
theorem xll_curve_pwflat_bootstrap_spec {Curve : Type} (H : Host Curve) (pi pp : List ℚ) :
    ((pi.length = 0 ∨ pp.length = 0 ∨ pi.length ≠ pp.length ∨
        ∃ x ∈ pi, H.instrument_handle x = none) →
      (xll_curve_pwflat_bootstrap_ H pi pp).h = H.INVALID_HANDLEX ∧
        (xll_curve_pwflat_bootstrap_ H pi pp).bootstrap_calls = 0) ∧
    ((xll_curve_pwflat_bootstrap_ H pi pp).h ≠ H.INVALID_HANDLEX →
      0 < pi.length ∧ 0 < pp.length ∧ pi.length = pp.length ∧
        (∀ x ∈ pi, H.instrument_handle x ≠ none) ∧
        ∃ (is : List instrument) (f : Curve),
          pi.map H.instrument_handle = is.map some ∧ H.bootstrap is pp = .ok f ∧
            H.curve_handle f = some (xll_curve_pwflat_bootstrap_ H pi pp).h) := by
  constructor
  · intro h
    obtain ⟨e, he⟩ := validate_error_of_invalid H pi pp h
    unfold xll_curve_pwflat_bootstrap_
    rw [he]
    exact ⟨rfl, rfl⟩
  · intro h
    obtain ⟨is, f, hv, hb, hc, -⟩ := xll_curve_pwflat_bootstrap_valid H pi pp h
    obtain ⟨h1, h2, h3, h4⟩ := validate_ok H pi pp is hv
    refine ⟨h1, h2, h3, ?_, is, f, h4, hb, hc⟩
    intro x hx hnone
    have hmem : H.instrument_handle x ∈ pi.map H.instrument_handle := List.mem_map_of_mem _ hx
    rw [h4, hnone] at hmem
    simp at hmem

/-- C10, instances on the host `demo`: an empty handle array and an array with
the unregistered handle 3 both give `INVALID_HANDLEX` with no call of the
bootstrap, and the handle 42 returned for the registered instrument comes with
passed checks. -/
theorem xll_curve_pwflat_bootstrap_spec_witness :
    ((xll_curve_pwflat_bootstrap_ demo [] [1]).h = demo.INVALID_HANDLEX ∧
        (xll_curve_pwflat_bootstrap_ demo [] [1]).bootstrap_calls = 0) ∧
      ((xll_curve_pwflat_bootstrap_ demo [7, 3] [1, 1]).h = demo.INVALID_HANDLEX ∧
        (xll_curve_pwflat_bootstrap_ demo [7, 3] [1, 1]).bootstrap_calls = 0) ∧
      (xll_curve_pwflat_bootstrap_ demo [7] [19 / 20]).h = 42 ∧
      ([7] : List ℚ).length = ([19 / 20] : List ℚ).length := by
  have h42 : (xll_curve_pwflat_bootstrap_ demo [7] [19 / 20]).h = 42 := by
    simp [xll_curve_pwflat_bootstrap_, validate_def, instruments, publish, demo, bind,
      Except.bind, pure, Except.pure]
  refine ⟨(xll_curve_pwflat_bootstrap_spec demo [] [1]).1 (Or.inl rfl),
    (xll_curve_pwflat_bootstrap_spec demo [7, 3] [1, 1]).1
      (Or.inr (Or.inr (Or.inr ⟨3, by simp, by simp [demo]⟩))), h42, ?_⟩
  have hne : (xll_curve_pwflat_bootstrap_ demo [7] [19 / 20]).h ≠ demo.INVALID_HANDLEX := by
    rw [h42]; simp [demo]
  exact ((xll_curve_pwflat_bootstrap_spec demo [7] [19 / 20]).2 hne).2.2.1
